import Mathlib

/-!
Shallow embedding of the RustIDE text-editing core
(crates/rustide-editor and crates/rustide-syntax), with theorems
settling the specification claims about it.

Conventions of the embedding:
- A rope (ropey::Rope) is modelled as a List Char of Unicode scalar
  values; ropey is char-indexed exactly like this list.
- Rust Vec used as a stack (push/pop at the back) is modelled as a
  Lean list whose HEAD is the top of the stack.
- The u64 version counter uses wrapping_add, modelled as addition
  modulo 2 ^ 64.
- usize saturating_sub is Nat subtraction.
-/

set_option maxRecDepth 4000

/-- Selection from crates/rustide-editor/src/selection.rs: an anchor and
a cursor, both char offsets. -/
structure Selection where
  anchor : Nat
  cursor : Nat
deriving DecidableEq, Repr

/-- Selection::collapsed. -/
def Selection.collapsed (pos : Nat) : Selection := ⟨pos, pos⟩

/-- Selection::is_empty. -/
def Selection.isEmpty (s : Selection) : Bool := s.anchor == s.cursor

/-- Selection::range, returned as a (start, stop) pair of the half-open
range [min anchor cursor, max anchor cursor). -/
def Selection.rangePair (s : Selection) : Nat × Nat :=
  if s.anchor ≤ s.cursor then (s.anchor, s.cursor) else (s.cursor, s.anchor)

/-- Selection::set_cursor. -/
def Selection.setCursor (s : Selection) (cursor : Nat) (extend : Bool) : Selection :=
  { anchor := if extend then s.anchor else cursor, cursor := cursor }

/-- Selection::collapse_to. -/
def Selection.collapseTo (_s : Selection) (pos : Nat) : Selection := ⟨pos, pos⟩

/-- Number of newline characters in a char list. -/
def countNewlines (l : List Char) : Nat := l.countP (fun c => c == '\n')

/-- Rope::len_lines: ropey counts one line more than the newline count. -/
def lenLines (l : List Char) : Nat := countNewlines l + 1

/-- Rope::char_to_line: the line index containing char i is the number of
newlines strictly before i. -/
def charToLine (l : List Char) (i : Nat) : Nat := countNewlines (l.take i)

/-- Rope::line_to_char: the char offset of the first char of line ln, i.e.
the position just after the ln-th newline (the total length when the text
has fewer than ln newlines). -/
def lineToChar : List Char → Nat → Nat
  | _, 0 => 0
  | [], _ + 1 => 0
  | c :: cs, n + 1 => 1 + lineToChar cs (if c == '\n' then n else n + 1)

/-- Rope::line(ln) as a char list: the slice from the start of line ln to
the start of line ln+1, including the terminating newline if present. -/
def lineSlice (l : List Char) (ln : Nat) : List Char :=
  (l.take (lineToChar l (ln + 1))).drop (lineToChar l ln)

/-- Editor::line_visible_len: the length of line ln with a trailing
newline, and an optional carriage return before it, stripped. -/
def lineVisibleLen (l : List Char) (ln : Nat) : Nat :=
  let s := lineSlice l ln
  match s.reverse with
  | [] => 0
  | a :: rest =>
    if a == '\n' then
      match rest with
      | b :: _ => if b == '\r' then s.length - 2 else s.length - 1
      | [] => s.length - 1
    else s.length

/-- Total UTF-8 byte length of a char list (Rust str byte length). -/
def utf8LenChars (l : List Char) : Nat := (l.map Char.utf8Size).sum

/-- Rope::char_to_byte: byte offset of char index i. -/
def charToByte (l : List Char) (i : Nat) : Nat := utf8LenChars (l.take i)

/-- EditorPoint from editor.rs: a row and a byte column. -/
structure EditorPoint where
  row : Nat
  column : Nat
deriving DecidableEq, Repr

/-- EditorEdit from editor.rs: the pending edit descriptor handed to the
incremental syntax state. -/
structure EditorEdit where
  startByte : Nat
  oldEndByte : Nat
  newEndByte : Nat
  startPoint : EditorPoint
  oldEndPoint : EditorPoint
  newEndPoint : EditorPoint
deriving DecidableEq, Repr

/-- point_for_char from editor.rs. -/
def pointForChar (l : List Char) (i : Nat) : EditorPoint :=
  let i := min i l.length
  let row := charToLine l i
  let lineStartByte := charToByte l (lineToChar l row)
  ⟨row, charToByte l i - lineStartByte⟩

/-- EditRecord from editor.rs: one reversible edit. -/
structure EditRecord where
  start : Nat
  inserted : List Char
  deleted : List Char
  before : Selection
  after : Selection
deriving DecidableEq, Repr

/-- History from editor.rs: the undo and redo stacks (list head = top). -/
structure History where
  undo : List EditRecord
  redo : List EditRecord
deriving DecidableEq, Repr

/-- Editor from editor.rs. -/
structure Editor where
  rope : List Char
  selection : Selection
  preferredColumn : Option Nat
  history : History
  version : Nat
  lastEdit : Option EditorEdit
deriving DecidableEq, Repr

/-- Modulus of the u64 version counter. -/
def u64Mod : Nat := 2 ^ 64

/-- Editor::from_text. -/
def Editor.fromText (t : List Char) : Editor :=
  ⟨t, Selection.collapsed 0, none, ⟨[], []⟩, 0, none⟩

/-- Editor::apply_raw_edit, acting on the rope and returning the new rope
together with the EditorEdit descriptor. -/
def applyRawEdit (rope : List Char) (start0 removeLenChars : Nat)
    (inserted : List Char) : List Char × EditorEdit :=
  let start := min start0 rope.length
  let oldEnd := min (start + removeLenChars) rope.length
  let startByte := charToByte rope start
  let oldEndByte := charToByte rope oldEnd
  let startPoint := pointForChar rope start
  let oldEndPoint := pointForChar rope oldEnd
  let rope1 := if start < oldEnd then rope.take start ++ rope.drop oldEnd else rope
  let rope2 := if inserted.isEmpty then rope1
               else rope1.take start ++ inserted ++ rope1.drop start
  let newEnd := min (start + inserted.length) rope2.length
  (rope2, ⟨startByte, oldEndByte, charToByte rope2 newEnd,
           startPoint, oldEndPoint, pointForChar rope2 newEnd⟩)

/-- Main branch of Editor::replace_range, taking the already clamped
start and stop offsets: capture the deleted text, apply the raw edit,
collapse the selection after the inserted text, clear the preferred
column, clear redo, push the EditRecord, bump the version. -/
def replaceRangeAux (e : Editor) (start stop : Nat) (inserted : List Char) : Editor :=
  let deleted := if start = stop then [] else (e.rope.take stop).drop start
  let res := applyRawEdit e.rope start (stop - start) inserted
  let after := Selection.collapsed (start + inserted.length)
  { rope := res.1
    selection := after
    preferredColumn := none
    history := ⟨⟨start, inserted, deleted, e.selection, after⟩ :: e.history.undo, []⟩
    version := (e.version + 1) % u64Mod
    lastEdit := some res.2 }

/-- Editor::replace_range. The none result models the panic of
ropey Rope::slice when the clamped range is inverted (start above stop);
in every other case the Rust function runs to completion. -/
def Editor.replaceRange (e : Editor) (rs re : Nat) (inserted : List Char) :
    Option Editor :=
  let start := min rs e.rope.length
  let stop := min re e.rope.length
  if start = stop ∧ inserted = [] then some e
  else if stop < start then none
  else some (replaceRangeAux e start stop inserted)

/-- Editor::insert_text. -/
def Editor.insertText (e : Editor) (text : List Char) : Option Editor :=
  let r := e.selection.rangePair
  if text = [] ∧ r.1 = r.2 then some e else e.replaceRange r.1 r.2 text

/-- Editor::backspace. -/
def Editor.backspace (e : Editor) : Option Editor :=
  let r := e.selection.rangePair
  if r.1 ≠ r.2 then e.replaceRange r.1 r.2 []
  else if e.selection.cursor = 0 then some e
  else e.replaceRange (e.selection.cursor - 1) e.selection.cursor []

/-- Editor::delete_forward. -/
def Editor.deleteForward (e : Editor) : Option Editor :=
  let r := e.selection.rangePair
  if r.1 ≠ r.2 then e.replaceRange r.1 r.2 []
  else if e.rope.length ≤ e.selection.cursor then some e
  else e.replaceRange e.selection.cursor (e.selection.cursor + 1) []

/-- Editor::undo: returns the new editor and the bool result. -/
def Editor.undo (e : Editor) : Editor × Bool :=
  match e.history.undo with
  | [] => (e, false)
  | r :: rest =>
    let res := applyRawEdit e.rope r.start r.inserted.length r.deleted
    ({ rope := res.1
       selection := r.before
       preferredColumn := none
       history := ⟨rest, r :: e.history.redo⟩
       version := (e.version + 1) % u64Mod
       lastEdit := some res.2 }, true)

/-- Editor::redo: returns the new editor and the bool result. -/
def Editor.redo (e : Editor) : Editor × Bool :=
  match e.history.redo with
  | [] => (e, false)
  | r :: rest =>
    let res := applyRawEdit e.rope r.start r.deleted.length r.inserted
    ({ rope := res.1
       selection := r.after
       preferredColumn := none
       history := ⟨r :: e.history.undo, rest⟩
       version := (e.version + 1) % u64Mod
       lastEdit := some res.2 }, true)

/-- Editor::set_cursor. -/
def Editor.setCursor (e : Editor) (cursor : Nat) (extend : Bool) : Editor :=
  let cursor := min cursor e.rope.length
  { e with selection := e.selection.setCursor cursor extend
           preferredColumn := if extend then e.preferredColumn else none }

/-- Editor::select_all. -/
def Editor.selectAll (e : Editor) : Editor :=
  { e with selection := ⟨0, e.rope.length⟩, preferredColumn := none }

/-- Editor::select_range. -/
def Editor.selectRange (e : Editor) (rs re : Nat) : Editor :=
  { e with selection := ⟨min rs e.rope.length, min re e.rope.length⟩
           preferredColumn := none }

/-- Editor::move_left. -/
def Editor.moveLeft (e : Editor) (extend : Bool) : Editor :=
  if !extend && !e.selection.isEmpty then
    { e with selection := e.selection.collapseTo e.selection.rangePair.1
             preferredColumn := none }
  else
    { e with selection := e.selection.setCursor (e.selection.cursor - 1) extend
             preferredColumn := if extend then e.preferredColumn else none }

/-- Editor::move_right. -/
def Editor.moveRight (e : Editor) (extend : Bool) : Editor :=
  if !extend && !e.selection.isEmpty then
    { e with selection := e.selection.collapseTo e.selection.rangePair.2
             preferredColumn := none }
  else
    { e with selection :=
               e.selection.setCursor (min (e.selection.cursor + 1) e.rope.length) extend
             preferredColumn := if extend then e.preferredColumn else none }

/-- Editor::cursor_line_col. -/
def Editor.cursorLineCol (e : Editor) : Nat × Nat :=
  let cursor := min e.selection.cursor e.rope.length
  let line := charToLine e.rope cursor
  (line, cursor - lineToChar e.rope line)

/-- Editor::move_line_start. -/
def Editor.moveLineStart (e : Editor) (extend : Bool) : Editor :=
  let start := lineToChar e.rope e.cursorLineCol.1
  { e with selection := e.selection.setCursor start extend
           preferredColumn := if extend then e.preferredColumn else none }

/-- Editor::move_line_end. -/
def Editor.moveLineEnd (e : Editor) (extend : Bool) : Editor :=
  let line := e.cursorLineCol.1
  let stop := lineToChar e.rope line + lineVisibleLen e.rope line
  { e with selection := e.selection.setCursor stop extend
           preferredColumn := if extend then e.preferredColumn else none }

/-- Editor::move_vertical. -/
def Editor.moveVertical (e : Editor) (deltaLines : Int) (extend : Bool) : Editor :=
  let cursor := min e.selection.cursor e.rope.length
  let lc := e.cursorLineCol
  let desired := e.preferredColumn.getD lc.2
  let targetLine := if deltaLines < 0 then lc.1 - deltaLines.natAbs
                    else min (lc.1 + deltaLines.toNat) (lenLines e.rope - 1)
  let lineCol := min desired (lineVisibleLen e.rope targetLine)
  let next := min (lineToChar e.rope targetLine + lineCol) e.rope.length
  { e with selection := e.selection.setCursor next extend
           preferredColumn := if !extend && cursor == next then none else some desired }

/-- Editor::move_up. -/
def Editor.moveUp (e : Editor) (extend : Bool) : Editor := e.moveVertical (-1) extend

/-- Editor::move_down. -/
def Editor.moveDown (e : Editor) (extend : Bool) : Editor := e.moveVertical 1 extend

/-- Editor::take_last_edit. -/
def Editor.takeLastEdit (e : Editor) : Option EditorEdit × Editor :=
  (e.lastEdit, { e with lastEdit := none })

/-- Slice of a char list between two char offsets, as produced by
Rope::slice(a..b).to_string(). -/
def extractChars (l : List Char) (a b : Nat) : List Char := (l.take b).drop a

/-- Effect of Editor::undo on the buffer text, given the popped record:
remove the recorded inserted text at its offset and put the recorded
deleted text back. -/
def undoApply (r : EditRecord) (t : List Char) : List Char :=
  t.take r.start ++ r.deleted ++ t.drop (r.start + r.inserted.length)

/-- Effect of Editor::redo on the buffer text, given the popped record. -/
def redoApply (r : EditRecord) (t : List Char) : List Char :=
  t.take r.start ++ r.inserted ++ t.drop (r.start + r.deleted.length)

/-- The record's inserted text is actually present in the buffer at the
recorded offset, so undoing it is meaningful. -/
def undoFits (r : EditRecord) (t : List Char) : Prop :=
  r.start + r.inserted.length ≤ t.length ∧
    extractChars t r.start (r.start + r.inserted.length) = r.inserted

/-- The record's deleted text is actually present in the buffer at the
recorded offset, so redoing it is meaningful. -/
def redoFits (r : EditRecord) (t : List Char) : Prop :=
  r.start + r.deleted.length ≤ t.length ∧
    extractChars t r.start (r.start + r.deleted.length) = r.deleted

/-- Every record of the undo stack fits the text obtained by undoing the
records above it. -/
def undoConsistent : List EditRecord → List Char → Prop
  | [], _ => True
  | r :: rs, t => undoFits r t ∧ undoConsistent rs (undoApply r t)

/-- Every record of the redo stack fits the text obtained by redoing the
records above it. -/
def redoConsistent : List EditRecord → List Char → Prop
  | [], _ => True
  | r :: rs, t => redoFits r t ∧ redoConsistent rs (redoApply r t)

/-- History invariant of an editor: both stacks are consistent with the
current buffer text. -/
def EditorInv (e : Editor) : Prop :=
  undoConsistent e.history.undo e.rope ∧ redoConsistent e.history.redo e.rope

/-- Editor states reachable from a fresh editor by the public mutating
operations. Editor::move_up and move_down are the two move_vertical
instances, and insert_newline_auto_indent only composes insert_text and
set_cursor, so all are covered. -/

inductive Reachable : Editor → Prop
  | fromText (t) : Reachable (Editor.fromText t)
  | setCursor {e} (c ext) : Reachable e → Reachable (e.setCursor c ext)
  | selectAll {e} : Reachable e → Reachable e.selectAll
  | selectRange {e} (a b) : Reachable e → Reachable (e.selectRange a b)
  | insertText {e e'} (t) : Reachable e → e.insertText t = some e' → Reachable e'
  | replaceRange {e e'} (a b t) : Reachable e → e.replaceRange a b t = some e' →
      Reachable e'
  | backspace {e e'} : Reachable e → e.backspace = some e' → Reachable e'
  | deleteForward {e e'} : Reachable e → e.deleteForward = some e' → Reachable e'
  | undoStep {e} : Reachable e → Reachable e.undo.1
  | redoStep {e} : Reachable e → Reachable e.redo.1
  | moveLeft {e} (ext) : Reachable e → Reachable (e.moveLeft ext)
  | moveRight {e} (ext) : Reachable e → Reachable (e.moveRight ext)
  | moveVertical {e} (d ext) : Reachable e → Reachable (e.moveVertical d ext)
  | moveLineStart {e} (ext) : Reachable e → Reachable (e.moveLineStart ext)
  | moveLineEnd {e} (ext) : Reachable e → Reachable (e.moveLineEnd ext)
  | takeLastEdit {e} : Reachable e → Reachable e.takeLastEdit.2

/-- Mirror of an edit record, exchanging the inserted and deleted text:
undoing a record is redoing its mirror. -/
def EditRecord.mirror (r : EditRecord) : EditRecord :=
  ⟨r.start, r.deleted, r.inserted, r.before, r.after⟩

/-- Frame of the pure movement and selection operations: buffer text,
version counter, both history stacks and the pending edit descriptor are
untouched. -/
def FrameIntact (e e' : Editor) : Prop :=
  e'.rope = e.rope ∧ e'.version = e.version ∧ e'.history = e.history ∧
    e'.lastEdit = e.lastEdit

/-- One or more effective edits: EditSeq e n holds when e is obtained
from a fresh editor by n calls of Editor::replace_range, each of which
actually mutates (is not the empty no-op case). -/
inductive EditSeq : Editor → Nat → Prop
  | base (t : List Char) : EditSeq (Editor.fromText t) 0
  | step {e e' : Editor} {n : Nat} (a b : Nat) (ins : List Char) :
      EditSeq e n →
      ¬(min a e.rope.length = min b e.rope.length ∧ ins = []) →
      e.replaceRange a b ins = some e' →
      EditSeq e' (n + 1)

/-- Iterated Editor::undo, keeping only the state. -/
def undoIter (e : Editor) : Nat → Editor
  | 0 => e
  | k + 1 => (undoIter e k).undo.1

/-- Unicode scalar value (what a Rust char stores): below 0x110000 and
not a surrogate. -/
def ScalarValid (c : Nat) : Prop := c < 0x110000 ∧ ¬(0xD800 ≤ c ∧ c ≤ 0xDFFF)

instance (c : Nat) : Decidable (ScalarValid c) := by
  unfold ScalarValid
  infer_instance

/-- Standard UTF-8 encoding of one scalar value, as Rust String stores
its text. -/
def utf8EncodeChar (c : Nat) : List Nat :=
  if c < 0x80 then [c]
  else if c < 0x800 then [0xC0 + c / 0x40, 0x80 + c % 0x40]
  else if c < 0x10000 then
    [0xE0 + c / 0x1000, 0x80 + c / 0x40 % 0x40, 0x80 + c % 0x40]
  else [0xF0 + c / 0x40000, 0x80 + c / 0x1000 % 0x40,
        0x80 + c / 0x40 % 0x40, 0x80 + c % 0x40]

/-- UTF-8 encoding of a scalar sequence: the bytes of a Rust str. -/
def utf8Encode : List Nat → List Nat
  | [] => []
  | c :: cs => utf8EncodeChar c ++ utf8Encode cs

/-- String::from_utf8_lossy: decode UTF-8, replacing each maximal
invalid subpart with U+FFFD. Continuation ranges depend on the lead
byte exactly as in the Rust core validator (overlongs and surrogates
rejected); an incomplete sequence at the end of input yields a single
replacement. -/
def utf8LossyDecode : List Nat → List Nat
  | [] => []
  | b :: rest =>
    if b < 0x80 then b :: utf8LossyDecode rest
    else if b < 0xC2 then 0xFFFD :: utf8LossyDecode rest
    else if b < 0xE0 then
      match rest with
      | [] => [0xFFFD]
      | b1 :: rest1 =>
        if 0x80 ≤ b1 ∧ b1 < 0xC0 then
          ((b - 0xC0) * 0x40 + (b1 - 0x80)) :: utf8LossyDecode rest1
        else 0xFFFD :: utf8LossyDecode (b1 :: rest1)
    else if b < 0xF0 then
      match rest with
      | [] => [0xFFFD]
      | b1 :: rest1 =>
        if 0x80 ≤ b1 ∧ b1 < 0xC0 ∧ ¬(b = 0xE0 ∧ b1 < 0xA0) ∧
            ¬(b = 0xED ∧ 0xA0 ≤ b1) then
          match rest1 with
          | [] => [0xFFFD]
          | b2 :: rest2 =>
            if 0x80 ≤ b2 ∧ b2 < 0xC0 then
              ((b - 0xE0) * 0x1000 + (b1 - 0x80) * 0x40 + (b2 - 0x80))
                :: utf8LossyDecode rest2
            else 0xFFFD :: utf8LossyDecode (b2 :: rest2)
        else 0xFFFD :: utf8LossyDecode (b1 :: rest1)
    else if b < 0xF5 then
      match rest with
      | [] => [0xFFFD]
      | b1 :: rest1 =>
        if 0x80 ≤ b1 ∧ b1 < 0xC0 ∧ ¬(b = 0xF0 ∧ b1 < 0x90) ∧
            ¬(b = 0xF4 ∧ 0x90 ≤ b1) then
          match rest1 with
          | [] => [0xFFFD]
          | b2 :: rest2 =>
            if 0x80 ≤ b2 ∧ b2 < 0xC0 then
              match rest2 with
              | [] => [0xFFFD]
              | b3 :: rest3 =>
                if 0x80 ≤ b3 ∧ b3 < 0xC0 then
                  ((b - 0xF0) * 0x40000 + (b1 - 0x80) * 0x1000 +
                    (b2 - 0x80) * 0x40 + (b3 - 0x80)) :: utf8LossyDecode rest3
                else 0xFFFD :: utf8LossyDecode (b3 :: rest3)
            else 0xFFFD :: utf8LossyDecode (b2 :: rest2)
        else 0xFFFD :: utf8LossyDecode (b1 :: rest1)
    else 0xFFFD :: utf8LossyDecode rest
termination_by structural l => l

/-- std::str::from_utf8 as a strict decoder: the scalar sequence when
the bytes are valid UTF-8, none otherwise. -/
def utf8DecodeStrict : List Nat → Option (List Nat)
  | [] => some []
  | b :: rest =>
    if b < 0x80 then (utf8DecodeStrict rest).map (b :: ·)
    else if b < 0xC2 then none
    else if b < 0xE0 then
      match rest with
      | [] => none
      | b1 :: rest1 =>
        if 0x80 ≤ b1 ∧ b1 < 0xC0 then
          (utf8DecodeStrict rest1).map (((b - 0xC0) * 0x40 + (b1 - 0x80)) :: ·)
        else none
    else if b < 0xF0 then
      match rest with
      | [] => none
      | b1 :: rest1 =>
        if 0x80 ≤ b1 ∧ b1 < 0xC0 ∧ ¬(b = 0xE0 ∧ b1 < 0xA0) ∧
            ¬(b = 0xED ∧ 0xA0 ≤ b1) then
          match rest1 with
          | [] => none
          | b2 :: rest2 =>
            if 0x80 ≤ b2 ∧ b2 < 0xC0 then
              (utf8DecodeStrict rest2).map
                (((b - 0xE0) * 0x1000 + (b1 - 0x80) * 0x40 + (b2 - 0x80)) :: ·)
            else none
        else none
    else if b < 0xF5 then
      match rest with
      | [] => none
      | b1 :: rest1 =>
        if 0x80 ≤ b1 ∧ b1 < 0xC0 ∧ ¬(b = 0xF0 ∧ b1 < 0x90) ∧
            ¬(b = 0xF4 ∧ 0x90 ≤ b1) then
          match rest1 with
          | [] => none
          | b2 :: rest2 =>
            if 0x80 ≤ b2 ∧ b2 < 0xC0 then
              match rest2 with
              | [] => none
              | b3 :: rest3 =>
                if 0x80 ≤ b3 ∧ b3 < 0xC0 then
                  (utf8DecodeStrict rest3).map
                    (((b - 0xF0) * 0x40000 + (b1 - 0x80) * 0x1000 +
                      (b2 - 0x80) * 0x40 + (b3 - 0x80)) :: ·)
                else none
            else none
        else none
    else none
termination_by structural l => l

/-- Pair up bytes into UTF-16 code units (little- or big-endian);
the flag reports a lone trailing byte. -/
def utf16CodeUnits (isBE : Bool) : List Nat → List Nat × Bool
  | [] => ([], false)
  | [_] => ([], true)
  | b1 :: b2 :: rest =>
    let u := if isBE then b1 * 256 + b2 else b2 * 256 + b1
    let p := utf16CodeUnits isBE rest
    (u :: p.1, p.2)

/-- WHATWG UTF-16 code-unit sequence to scalars: surrogate pairs are
combined, unpaired surrogates become U+FFFD (with the following unit
reprocessed, as encoding_rs does). -/
def utf16ScalarsOfUnits : List Nat → List Nat
  | [] => []
  | u :: rest =>
    if u < 0xD800 ∨ 0xE000 ≤ u then u :: utf16ScalarsOfUnits rest
    else if u < 0xDC00 then
      match rest with
      | [] => [0xFFFD]
      | u2 :: rest2 =>
        if 0xDC00 ≤ u2 ∧ u2 < 0xE000 then
          (0x10000 + (u - 0xD800) * 0x400 + (u2 - 0xDC00))
            :: utf16ScalarsOfUnits rest2
        else 0xFFFD :: utf16ScalarsOfUnits (u2 :: rest2)
    else 0xFFFD :: utf16ScalarsOfUnits rest
termination_by structural l => l

/-- UTF-16 byte decoding without BOM handling: pair bytes, convert
units, and emit one replacement for a lone trailing byte. -/
def utf16DecodeBytes (isBE : Bool) (bytes : List Nat) : List Nat :=
  let p := utf16CodeUnits isBE bytes
  utf16ScalarsOfUnits p.1 ++ (if p.2 then [0xFFFD] else [])

/-- <[u8]>::strip_prefix. -/
def stripPfx : List Nat → List Nat → Option (List Nat)
  | [], l => some l
  | _ :: _, [] => none
  | a :: p, b :: l => if a = b then stripPfx p l else none

/-- TextEncodingHint from document.rs. -/
inductive TextEncodingHint where
  | auto
  | utf8
  | utf16le
  | utf16be
  | gbk
  | big5
deriving DecidableEq, Repr

/-- TextEncoding from document.rs. -/
inductive TextEncoding where
  | utf8
  | utf8bom
  | utf16le
  | utf16be
  | gbk
  | big5
deriving DecidableEq, Repr

/-- Modelled from the behavior of encoding_rs GBK decoding without BOM
handling, restricted: the GBK/GB18030 index table is not embedded here,
so only the ASCII range is modelled faithfully (bytes below 0x80 decode
to themselves and never error); any byte at or above 0x80 is modelled
as one replacement char with the error flag set. No theorem in this
file depends on non-ASCII GBK input. -/
def gbkDecodeCore : List Nat → List Nat × Bool
  | [] => ([], false)
  | b :: rest =>
    let p := gbkDecodeCore rest
    if b < 0x80 then (b :: p.1, p.2) else (0xFFFD :: p.1, true)

/-- Modelled from the behavior of encoding_rs Big5 decoding without BOM
handling, with the same ASCII-only restriction as gbkDecodeCore. -/
def big5DecodeCore : List Nat → List Nat × Bool
  | [] => ([], false)
  | b :: rest =>
    let p := big5DecodeCore rest
    if b < 0x80 then (b :: p.1, p.2) else (0xFFFD :: p.1, true)

/-- encoding_rs Encoding::decode performs BOM sniffing before decoding:
a UTF-8 / UTF-16LE / UTF-16BE BOM overrides the encoding itself. This
wrapper applies that sniffing around a given no-BOM decoder. -/
def encRsBomSniff (noBom : List Nat → List Nat) (bytes : List Nat) : List Nat :=
  match stripPfx [0xEF, 0xBB, 0xBF] bytes with
  | some rest => utf8LossyDecode rest
  | none =>
  match stripPfx [0xFF, 0xFE] bytes with
  | some rest => utf16DecodeBytes false rest
  | none =>
  match stripPfx [0xFE, 0xFF] bytes with
  | some rest => utf16DecodeBytes true rest
  | none => noBom bytes

/-- encoding_rs UTF_16LE.decode: BOM sniffing, then UTF-16LE. -/
def utf16leDecodeRs (bytes : List Nat) : List Nat :=
  encRsBomSniff (utf16DecodeBytes false) bytes

/-- encoding_rs UTF_16BE.decode: BOM sniffing, then UTF-16BE. -/
def utf16beDecodeRs (bytes : List Nat) : List Nat :=
  encRsBomSniff (utf16DecodeBytes true) bytes

/-- encoding_rs GBK.decode: BOM sniffing, then GBK; the error flag of
the BOM-taken branches is irrelevant to the callers modelled here. -/
def gbkDecodeRs (bytes : List Nat) : List Nat × Bool :=
  match stripPfx [0xEF, 0xBB, 0xBF] bytes with
  | some rest => (utf8LossyDecode rest, false)
  | none =>
  match stripPfx [0xFF, 0xFE] bytes with
  | some rest => (utf16DecodeBytes false rest, false)
  | none =>
  match stripPfx [0xFE, 0xFF] bytes with
  | some rest => (utf16DecodeBytes true rest, false)
  | none => gbkDecodeCore bytes

/-- encoding_rs BIG5.decode: BOM sniffing, then Big5. -/
def big5DecodeRs (bytes : List Nat) : List Nat × Bool :=
  match stripPfx [0xEF, 0xBB, 0xBF] bytes with
  | some rest => (utf8LossyDecode rest, false)
  | none =>
  match stripPfx [0xFF, 0xFE] bytes with
  | some rest => (utf16DecodeBytes false rest, false)
  | none =>
  match stripPfx [0xFE, 0xFF] bytes with
  | some rest => (utf16DecodeBytes true rest, false)
  | none => big5DecodeCore bytes

/-- Modelled from the behavior of encoding_rs GBK encoding, restricted
like gbkDecodeCore: ASCII scalars encode to themselves (faithful); any
other scalar is modelled as the single substitution byte 0x3F (the real
library emits the GBK bytes of mappable scalars and a numeric character
reference for unmappable ones). No theorem in this file depends on this
arm. -/
def gbkEncodeCore : List Nat → List Nat
  | [] => []
  | c :: rest => (if c < 0x80 then [c] else [0x3F]) ++ gbkEncodeCore rest

/-- Modelled from the behavior of encoding_rs Big5 encoding, with the
same ASCII-only restriction as gbkEncodeCore. -/
def big5EncodeCore : List Nat → List Nat
  | [] => []
  | c :: rest => (if c < 0x80 then [c] else [0x3F]) ++ big5EncodeCore rest

/-- decode_bytes from document.rs: (1) BOM sniffing for UTF-8,
UTF-16LE, UTF-16BE, stripping the BOM; (2) an explicit hint decodes
directly (lossily); (3) Auto tries strict UTF-8; (4) otherwise decode
with both GBK and Big5 and keep the error-free one, preferring GBK on
a tie. -/
def decode_bytes (bytes : List Nat) (hint : TextEncodingHint) :
    List Nat × TextEncoding :=
  match stripPfx [0xEF, 0xBB, 0xBF] bytes with
  | some rest => (utf8LossyDecode rest, TextEncoding.utf8bom)
  | none =>
  match stripPfx [0xFF, 0xFE] bytes with
  | some rest => (utf16leDecodeRs rest, TextEncoding.utf16le)
  | none =>
  match stripPfx [0xFE, 0xFF] bytes with
  | some rest => (utf16beDecodeRs rest, TextEncoding.utf16be)
  | none =>
  match hint with
  | TextEncodingHint.utf8 => (utf8LossyDecode bytes, TextEncoding.utf8)
  | TextEncodingHint.utf16le => (utf16leDecodeRs bytes, TextEncoding.utf16le)
  | TextEncodingHint.utf16be => (utf16beDecodeRs bytes, TextEncoding.utf16be)
  | TextEncodingHint.gbk => ((gbkDecodeRs bytes).1, TextEncoding.gbk)
  | TextEncodingHint.big5 => ((big5DecodeRs bytes).1, TextEncoding.big5)
  | TextEncodingHint.auto =>
    match utf8DecodeStrict bytes with
    | some text => (text, TextEncoding.utf8)
    | none =>
      let g := gbkDecodeRs bytes
      let b5 := big5DecodeRs bytes
      match g.2, b5.2 with
      | false, true => (g.1, TextEncoding.gbk)
      | true, false => (b5.1, TextEncoding.big5)
      | _, _ => (g.1, TextEncoding.gbk)

/-- encode_text from document.rs. The Utf16Le and Utf16Be arms call
encoding_rs UTF_16LE.encode / UTF_16BE.encode, and per the Encoding
Standard UTF-16 has no encoder: Encoding::encode encodes with the
OUTPUT encoding, which is UTF-8 for both UTF-16 variants. The bytes
after the hand-written BOM are therefore the UTF-8 bytes of the text,
not UTF-16 code units. -/
def encode_text (text : List Nat) (enc : TextEncoding) : List Nat :=
  match enc with
  | TextEncoding.utf8 => utf8Encode text
  | TextEncoding.utf8bom => 0xEF :: 0xBB :: 0xBF :: utf8Encode text
  | TextEncoding.utf16le => 0xFF :: 0xFE :: utf8Encode text
  | TextEncoding.utf16be => 0xFE :: 0xFF :: utf8Encode text
  | TextEncoding.gbk => gbkEncodeCore text
  | TextEncoding.big5 => big5EncodeCore text

/-- LanguageId from crates/rustide-syntax/src/language.rs. -/
inductive LanguageId where
  | cpp
  | python
  | hlsl
  | markdown
  | plainText
deriving DecidableEq, Repr

/-- SyntaxError from crates/rustide-syntax/src/syntax.rs. -/
inductive SyntaxError where
  | parserInit
  | parseFailed
  | query (msg : String)
deriving DecidableEq, Repr

/-- HighlightTag from syntax.rs (constructor names adjusted where the
Rust variant name is a Lean keyword). -/
inductive HighlightTag where
  | comment
  | string
  | number
  | keyword
  | typeTag
  | functionTag
  | constant
  | variableTag
  | property
  | operator
  | punctuation
deriving DecidableEq, Repr

/-- HighlightSpan from syntax.rs: byte_range as a (start, stop) pair
plus the tag. -/
structure HighlightSpan where
  start : Nat
  stop : Nat
  tag : HighlightTag
deriving DecidableEq, Repr

/-- SyntaxState from syntax.rs, with the tree-sitter parser, query and
cursor handles abstracted away: the tree is an opaque value of type T,
and the compiled query is represented by its presence. Instant and
Duration are modelled as Nat clock readings. -/
structure SyntaxState (T : Type) where
  language : LanguageId
  tree : Option T
  hasQuery : Bool
  debounce : Nat
  pendingSince : Option Nat
deriving DecidableEq, Repr

/-- str::trim_start_matches applied to the at-sign. -/
def dropAts : List Char → List Char
  | [] => []
  | c :: rest => if c = '@' then dropAts rest else c :: rest

/-- The substring before the first dot: split on dots and take the
first segment (split always yields at least one segment). -/
def headSegment (l : List Char) : List Char := l.takeWhile (fun c => c ≠ '.')

/-- tag_from_capture_name from syntax.rs. -/
def tag_from_capture_name (name : List Char) : Option HighlightTag :=
  let name := dropAts name
  let head := headSegment name
  if head = "comment".toList then some HighlightTag.comment
  else if head = "string".toList then some HighlightTag.string
  else if head = "number".toList then some HighlightTag.number
  else if head = "keyword".toList then some HighlightTag.keyword
  else if head = "type".toList then some HighlightTag.typeTag
  else if head = "function".toList then some HighlightTag.functionTag
  else if head = "constant".toList then some HighlightTag.constant
  else if head = "variable".toList then some HighlightTag.variableTag
  else if head = "property".toList ∨ head = "field".toList then
    some HighlightTag.property
  else if head = "operator".toList then some HighlightTag.operator
  else if head = "punctuation".toList then some HighlightTag.punctuation
  else if head = "constructor".toList then some HighlightTag.typeTag
  else if head = "escape".toList then some HighlightTag.string
  else if head = "embedded".toList then some HighlightTag.string
  else none

/-- One capture produced by the tree-sitter query cursor: its capture
name and its node's byte range. -/
structure CaptureM where
  name : List Char
  start : Nat
  stop : Nat
deriving DecidableEq, Repr

/-- Body of the capture loop in SyntaxState::highlight_spans: map the
capture name to a tag (dropping unrecognized names), clip the node's
byte range to the query window, and keep the span only if non-empty. -/
def spanOfCapture (rStart rEnd : Nat) (c : CaptureM) : Option HighlightSpan :=
  match tag_from_capture_name c.name with
  | none => none
  | some tag =>
    let s := max c.start rStart
    let e := min c.stop rEnd
    if s < e then some ⟨s, e, tag⟩ else none

/-- Strict comparison of the sort keys of highlight_spans: the pair
(start, end) lexicographically. -/
def spanKeyLt (a b : HighlightSpan) : Bool :=
  decide (a.start < b.start ∨ (a.start = b.start ∧ a.stop < b.stop))

/-- Non-strict (start, end) key order, as a proposition. -/
def spanLeP (a b : HighlightSpan) : Prop :=
  a.start < b.start ∨ (a.start = b.start ∧ a.stop ≤ b.stop)

/-- Stable insertion of a span into a sorted list: the new span goes
before the first strictly greater element, after equal keys seen so
far. -/
def insertSpan (x : HighlightSpan) : List HighlightSpan → List HighlightSpan
  | [] => [x]
  | y :: ys => if spanKeyLt y x then y :: insertSpan x ys else x :: y :: ys

/-- Stable sort by the (start, end) key. Rust slice::sort_by_key is a
stable sort, and a stable sort by a total key order is extensionally
unique, so this insertion sort computes the same list. -/
def sortSpans : List HighlightSpan → List HighlightSpan
  | [] => []
  | x :: xs => insertSpan x (sortSpans xs)

/-- SyntaxState::ensure_parsed. The rope is consumed only by the
tree-sitter parser, which is abstracted as the parseResult oracle
(none models a parse failure); now is the current clock reading. -/
def ensureParsed {T : Type} (st : SyntaxState T) (now : Nat)
    (parseResult : Option T) : SyntaxState T × Except SyntaxError Unit :=
  if st.language = LanguageId.plainText ∨ st.language = LanguageId.markdown then
    (st, Except.ok ())
  else
    match st.pendingSince with
    | none => (st, Except.ok ())
    | some since =>
      if now - since < st.debounce then (st, Except.ok ())
      else
        match parseResult with
        | none => (st, Except.error SyntaxError.parseFailed)
        | some tree =>
          ({ st with tree := some tree, pendingSince := none }, Except.ok ())

/-- SyntaxState::highlight_spans: ensure_parsed first; with no compiled
query or no tree, an empty list; otherwise the clipped, tag-mapped,
(start, end)-sorted spans of the query captures (abstracted as the
captures list). -/
def highlight_spans {T : Type} (st : SyntaxState T) (now : Nat)
    (parseResult : Option T) (captures : List CaptureM) (rStart rEnd : Nat) :
    SyntaxState T × Except SyntaxError (List HighlightSpan) :=
  let p := ensureParsed st now parseResult
  match p.2 with
  | Except.error e => (p.1, Except.error e)
  | Except.ok _ =>
    if p.1.hasQuery ∧ p.1.tree.isSome then
      (p.1, Except.ok (sortSpans (captures.filterMap (spanOfCapture rStart rEnd))))
    else (p.1, Except.ok [])

lemma take_extract_drop (l : List Char) (a b : Nat) (hab : a ≤ b) :
    l.take a ++ extractChars l a b ++ l.drop b = l := by
  unfold extractChars
  rw [List.drop_take]
  have h2 : l.drop b = (l.drop a).drop (b - a) := by
    rw [List.drop_drop]
    congr 1
    omega
  rw [h2, List.append_assoc, List.take_append_drop, List.take_append_drop]

lemma take_splice (p rest : List Char) (n : Nat) (hn : p.length = n) :
    (p ++ rest).take n = p := by
  subst hn
  rw [List.take_append_of_le_length (Nat.le_refl _), List.take_length]

lemma drop_splice (p rest : List Char) (n : Nat) (hn : p.length = n) :
    (p ++ rest).drop n = rest := by
  subst hn
  rw [List.drop_append_of_le_length (Nat.le_refl _), List.drop_length, List.nil_append]

lemma extract_splice (p m s : List Char) (a b : Nat) (ha : p.length = a)
    (hb : a + m.length = b) : extractChars (p ++ m ++ s) a b = m := by
  unfold extractChars
  rw [List.append_assoc]
  have h1 : (p ++ (m ++ s)).take b = p ++ m := by
    rw [List.take_append_eq_append_take, List.take_of_length_le (by omega)]
    congr 1
    rw [show b - p.length = m.length by omega,
      List.take_append_of_le_length (Nat.le_refl _), List.take_length]
  rw [h1]
  exact drop_splice p m a ha

lemma applyRawEdit_fst (t : List Char) (s k : Nat) (ins : List Char)
    (h : s + k ≤ t.length) :
    (applyRawEdit t s k ins).1 = t.take s ++ ins ++ t.drop (s + k) := by
  have hs : min s t.length = s := by omega
  have he : min (s + k) t.length = s + k := by omega
  have hlen : (t.take s).length = s := by simp; omega
  have h1 : (if s < s + k then t.take s ++ t.drop (s + k) else t)
      = t.take s ++ t.drop (s + k) := by
    split
    · rfl
    · next hlt =>
      have hk : k = 0 := by omega
      subst hk
      rw [Nat.add_zero, List.take_append_drop]
  simp only [applyRawEdit, hs, he]
  rw [h1]
  by_cases hi : ins = []
  · subst hi
    simp
  · rw [if_neg (by simp [hi])]
    rw [take_splice _ _ _ hlen, drop_splice _ _ _ hlen]

lemma undoFits_mirror (r : EditRecord) (t : List Char) :
    undoFits r.mirror t ↔ redoFits r t := Iff.rfl

lemma applyRaw_undo_of_fits {r : EditRecord} {t : List Char} (hf : undoFits r t) :
    (applyRawEdit t r.start r.inserted.length r.deleted).1 = undoApply r t := by
  rw [applyRawEdit_fst _ _ _ _ hf.1]
  rfl

lemma applyRaw_redo_of_fits {r : EditRecord} {t : List Char} (hf : redoFits r t) :
    (applyRawEdit t r.start r.deleted.length r.inserted).1 = redoApply r t := by
  rw [applyRawEdit_fst _ _ _ _ hf.1]
  rfl

lemma redoFits_undoApply {r : EditRecord} {t : List Char} (hf : undoFits r t) :
    redoFits r (undoApply r t) := by
  obtain ⟨h1, h2⟩ := hf
  have hp : (t.take r.start).length = r.start := by simp; omega
  constructor
  · unfold undoApply
    simp only [List.length_append, hp]
    omega
  · unfold undoApply
    exact extract_splice _ _ _ _ _ hp rfl

lemma redoApply_undoApply {r : EditRecord} {t : List Char} (hf : undoFits r t) :
    redoApply r (undoApply r t) = t := by
  obtain ⟨h1, h2⟩ := hf
  have hp : (t.take r.start).length = r.start := by simp; omega
  have hX1 : (t.take r.start ++ r.deleted ++
      t.drop (r.start + r.inserted.length)).take r.start = t.take r.start := by
    rw [List.append_assoc]
    exact take_splice _ _ _ hp
  have hX2 : (t.take r.start ++ r.deleted ++
      t.drop (r.start + r.inserted.length)).drop (r.start + r.deleted.length)
      = t.drop (r.start + r.inserted.length) := by
    apply drop_splice
    simp [hp]
  have hted := take_extract_drop t r.start (r.start + r.inserted.length) (by omega)
  rw [h2] at hted
  unfold redoApply undoApply
  unfold undoApply at hX1 hX2
  rw [hX1, hX2]
  exact hted

lemma undoFits_redoApply {r : EditRecord} {t : List Char} (hf : redoFits r t) :
    undoFits r (redoApply r t) :=
  @redoFits_undoApply r.mirror t ((undoFits_mirror r t).mpr hf)

lemma undoApply_redoApply {r : EditRecord} {t : List Char} (hf : redoFits r t) :
    undoApply r (redoApply r t) = t :=
  @redoApply_undoApply r.mirror t ((undoFits_mirror r t).mpr hf)

lemma deleted_eq (t : List Char) (start stop : Nat) (hss : start ≤ stop) :
    (if start = stop then ([] : List Char) else (t.take stop).drop start)
      = extractChars t start stop := by
  split
  · next h =>
    subst h
    unfold extractChars
    symm
    apply List.drop_of_length_le
    simp
  · rfl

lemma replaceRangeAux_rope {e : Editor} {start stop : Nat} (ins : List Char)
    (hss : start ≤ stop) (hs : stop ≤ e.rope.length) :
    (replaceRangeAux e start stop ins).rope
      = e.rope.take start ++ ins ++ e.rope.drop stop := by
  unfold replaceRangeAux
  dsimp only
  rw [applyRawEdit_fst _ _ _ _ (by omega), show start + (stop - start) = stop by omega]

lemma inv_replaceRangeAux {e : Editor} (he : EditorInv e) {start stop : Nat}
    (ins : List Char) (hss : start ≤ stop) (hs : stop ≤ e.rope.length) :
    EditorInv (replaceRangeAux e start stop ins) := by
  have hrope := @replaceRangeAux_rope e start stop ins hss hs
  have hp : (e.rope.take start).length = start := by simp; omega
  refine ⟨?_, trivial⟩
  show undoConsistent (⟨start, ins,
    if start = stop then [] else (e.rope.take stop).drop start,
    e.selection, Selection.collapsed (start + ins.length)⟩ :: e.history.undo)
    (replaceRangeAux e start stop ins).rope
  rw [hrope]
  refine ⟨⟨?_, ?_⟩, ?_⟩
  · simp only [List.length_append, hp]
    omega
  · exact extract_splice _ _ _ _ _ hp rfl
  · show undoConsistent e.history.undo (undoApply _ _)
    have hun : undoApply ⟨start, ins,
        if start = stop then [] else (e.rope.take stop).drop start,
        e.selection, Selection.collapsed (start + ins.length)⟩
        (e.rope.take start ++ ins ++ e.rope.drop stop) = e.rope := by
      unfold undoApply
      dsimp only
      have hX1 : (e.rope.take start ++ ins ++ e.rope.drop stop).take start
          = e.rope.take start := by
        rw [List.append_assoc]
        exact take_splice _ _ _ hp
      have hX2 : (e.rope.take start ++ ins ++ e.rope.drop stop).drop
          (start + ins.length) = e.rope.drop stop := by
        apply drop_splice
        simp [hp]
      rw [hX1, hX2, deleted_eq _ _ _ hss]
      exact take_extract_drop _ _ _ hss
    rw [hun]
    exact he.1

lemma replaceRange_cases {e e' : Editor} {a b : Nat} {ins : List Char}
    (h : e.replaceRange a b ins = some e') :
    (min a e.rope.length = min b e.rope.length ∧ ins = [] ∧ e' = e) ∨
    (¬(min a e.rope.length = min b e.rope.length ∧ ins = []) ∧
      min a e.rope.length ≤ min b e.rope.length ∧
      e' = replaceRangeAux e (min a e.rope.length) (min b e.rope.length) ins) := by
  unfold Editor.replaceRange at h
  dsimp only at h
  split_ifs at h with h1 h2
  · exact Or.inl ⟨h1.1, h1.2, (Option.some_inj.mp h).symm⟩
  · exact Or.inr ⟨h1, by omega, (Option.some_inj.mp h).symm⟩

lemma inv_replaceRange {e e' : Editor} {a b : Nat} {ins : List Char}
    (he : EditorInv e) (h : e.replaceRange a b ins = some e') : EditorInv e' := by
  rcases replaceRange_cases h with ⟨_, _, rfl⟩ | ⟨_, hle, rfl⟩
  · exact he
  · exact inv_replaceRangeAux he ins hle (Nat.min_le_right _ _)

lemma inv_insertText {e e' : Editor} {t : List Char}
    (he : EditorInv e) (h : e.insertText t = some e') : EditorInv e' := by
  unfold Editor.insertText at h
  dsimp only at h
  split_ifs at h with h1
  · obtain rfl := Option.some_inj.mp h
    exact he
  · exact inv_replaceRange he h

lemma inv_backspace {e e' : Editor}
    (he : EditorInv e) (h : e.backspace = some e') : EditorInv e' := by
  unfold Editor.backspace at h
  dsimp only at h
  split_ifs at h with h1 h2
  · exact inv_replaceRange he h
  · obtain rfl := Option.some_inj.mp h
    exact he
  · exact inv_replaceRange he h

lemma inv_deleteForward {e e' : Editor}
    (he : EditorInv e) (h : e.deleteForward = some e') : EditorInv e' := by
  unfold Editor.deleteForward at h
  dsimp only at h
  split_ifs at h with h1 h2
  · exact inv_replaceRange he h
  · obtain rfl := Option.some_inj.mp h
    exact he
  · exact inv_replaceRange he h

lemma inv_undo {e : Editor} (he : EditorInv e) : EditorInv e.undo.1 := by
  cases hu : e.history.undo with
  | nil =>
    simp only [Editor.undo, hu]
    exact he
  | cons r rest =>
    have hfit : undoFits r e.rope ∧ undoConsistent rest (undoApply r e.rope) := by
      have h1 := he.1
      rw [hu] at h1
      exact h1
    simp only [Editor.undo, hu]
    refine ⟨?_, ?_⟩
    · show undoConsistent rest
        (applyRawEdit e.rope r.start r.inserted.length r.deleted).1
      rw [applyRaw_undo_of_fits hfit.1]
      exact hfit.2
    · show redoConsistent (r :: e.history.redo)
        (applyRawEdit e.rope r.start r.inserted.length r.deleted).1
      rw [applyRaw_undo_of_fits hfit.1]
      refine ⟨redoFits_undoApply hfit.1, ?_⟩
      rw [redoApply_undoApply hfit.1]
      exact he.2

lemma inv_redo {e : Editor} (he : EditorInv e) : EditorInv e.redo.1 := by
  cases hu : e.history.redo with
  | nil =>
    simp only [Editor.redo, hu]
    exact he
  | cons r rest =>
    have hfit : redoFits r e.rope ∧ redoConsistent rest (redoApply r e.rope) := by
      have h2 := he.2
      rw [hu] at h2
      exact h2
    simp only [Editor.redo, hu]
    refine ⟨?_, ?_⟩
    · show undoConsistent (r :: e.history.undo)
        (applyRawEdit e.rope r.start r.deleted.length r.inserted).1
      rw [applyRaw_redo_of_fits hfit.1]
      refine ⟨undoFits_redoApply hfit.1, ?_⟩
      rw [undoApply_redoApply hfit.1]
      exact he.1
    · show redoConsistent rest
        (applyRawEdit e.rope r.start r.deleted.length r.inserted).1
      rw [applyRaw_redo_of_fits hfit.1]
      exact hfit.2

lemma frame_setCursor (e : Editor) (c : Nat) (ext : Bool) :
    FrameIntact e (e.setCursor c ext) := ⟨rfl, rfl, rfl, rfl⟩

lemma frame_selectAll (e : Editor) : FrameIntact e e.selectAll := ⟨rfl, rfl, rfl, rfl⟩

lemma frame_selectRange (e : Editor) (a b : Nat) :
    FrameIntact e (e.selectRange a b) := ⟨rfl, rfl, rfl, rfl⟩

lemma frame_moveLeft (e : Editor) (ext : Bool) : FrameIntact e (e.moveLeft ext) := by
  unfold Editor.moveLeft
  split
  · exact ⟨rfl, rfl, rfl, rfl⟩
  · exact ⟨rfl, rfl, rfl, rfl⟩

lemma frame_moveRight (e : Editor) (ext : Bool) : FrameIntact e (e.moveRight ext) := by
  unfold Editor.moveRight
  split
  · exact ⟨rfl, rfl, rfl, rfl⟩
  · exact ⟨rfl, rfl, rfl, rfl⟩

lemma frame_moveVertical (e : Editor) (d : Int) (ext : Bool) :
    FrameIntact e (e.moveVertical d ext) := ⟨rfl, rfl, rfl, rfl⟩

lemma frame_moveLineStart (e : Editor) (ext : Bool) :
    FrameIntact e (e.moveLineStart ext) := ⟨rfl, rfl, rfl, rfl⟩

lemma frame_moveLineEnd (e : Editor) (ext : Bool) :
    FrameIntact e (e.moveLineEnd ext) := ⟨rfl, rfl, rfl, rfl⟩

lemma inv_of_frame {e e' : Editor} (hf : e'.rope = e.rope ∧ e'.history = e.history)
    (he : EditorInv e) : EditorInv e' := by
  unfold EditorInv
  rw [hf.1, hf.2]
  exact he

/-- Every reachable editor state satisfies the history invariant. -/
theorem reachable_inv {e : Editor} (h : Reachable e) : EditorInv e := by
  induction h with
  | fromText t => exact ⟨trivial, trivial⟩
  | setCursor c ext _ ih => exact inv_of_frame ⟨rfl, rfl⟩ ih
  | selectAll _ ih => exact inv_of_frame ⟨rfl, rfl⟩ ih
  | selectRange a b _ ih => exact inv_of_frame ⟨rfl, rfl⟩ ih
  | insertText t _ h ih => exact inv_insertText ih h
  | replaceRange a b t _ h ih => exact inv_replaceRange ih h
  | backspace _ h ih => exact inv_backspace ih h
  | deleteForward _ h ih => exact inv_deleteForward ih h
  | undoStep _ ih => exact inv_undo ih
  | redoStep _ ih => exact inv_redo ih
  | moveLeft ext _ ih =>
    exact inv_of_frame ⟨(frame_moveLeft _ ext).1, (frame_moveLeft _ ext).2.2.1⟩ ih
  | moveRight ext _ ih =>
    exact inv_of_frame ⟨(frame_moveRight _ ext).1, (frame_moveRight _ ext).2.2.1⟩ ih
  | moveVertical d ext _ ih => exact inv_of_frame ⟨rfl, rfl⟩ ih
  | moveLineStart ext _ ih => exact inv_of_frame ⟨rfl, rfl⟩ ih
  | moveLineEnd ext _ ih => exact inv_of_frame ⟨rfl, rfl⟩ ih
  | takeLastEdit _ ih => exact inv_of_frame ⟨rfl, rfl⟩ ih

lemma undo_of_cons {e : Editor} {r : EditRecord} {rest : List EditRecord}
    (hu : e.history.undo = r :: rest) :
    e.undo = ({ rope := (applyRawEdit e.rope r.start r.inserted.length r.deleted).1
                selection := r.before
                preferredColumn := none
                history := ⟨rest, r :: e.history.redo⟩
                version := (e.version + 1) % u64Mod
                lastEdit :=
                  some (applyRawEdit e.rope r.start r.inserted.length r.deleted).2 },
      true) := by
  simp only [Editor.undo, hu]

lemma redo_of_cons {e : Editor} {r : EditRecord} {rest : List EditRecord}
    (hr : e.history.redo = r :: rest) :
    e.redo = ({ rope := (applyRawEdit e.rope r.start r.deleted.length r.inserted).1
                selection := r.after
                preferredColumn := none
                history := ⟨r :: e.history.undo, rest⟩
                version := (e.version + 1) % u64Mod
                lastEdit :=
                  some (applyRawEdit e.rope r.start r.deleted.length r.inserted).2 },
      true) := by
  simp only [Editor.redo, hr]

lemma undo_redo_restores {e : Editor} (hinv : EditorInv e) {r : EditRecord}
    {rest : List EditRecord} (hu : e.history.undo = r :: rest) :
    e.undo.1.redo.1.rope = e.rope ∧ e.undo.1.redo.1.selection = r.after := by
  have hfit : undoFits r e.rope := by
    have h1 := hinv.1
    rw [hu] at h1
    exact h1.1
  rw [undo_of_cons hu]
  simp only [Editor.redo]
  rw [applyRaw_undo_of_fits hfit,
    applyRaw_redo_of_fits (redoFits_undoApply hfit), redoApply_undoApply hfit]
  exact ⟨rfl, trivial⟩

lemma redo_undo_restores {e : Editor} (hinv : EditorInv e) {r : EditRecord}
    {rest : List EditRecord} (hr : e.history.redo = r :: rest) :
    e.redo.1.undo.1.rope = e.rope ∧ e.redo.1.undo.1.selection = r.before := by
  have hfit : redoFits r e.rope := by
    have h2 := hinv.2
    rw [hr] at h2
    exact h2.1
  rw [redo_of_cons hr]
  simp only [Editor.undo]
  rw [applyRaw_redo_of_fits hfit,
    applyRaw_undo_of_fits (undoFits_redoApply hfit), undoApply_redoApply hfit]
  exact ⟨rfl, trivial⟩

lemma replaceRangeAux_undo (e : Editor) (start stop : Nat) (ins : List Char) :
    (replaceRangeAux e start stop ins).history.undo
      = ⟨start, ins, if start = stop then [] else (e.rope.take stop).drop start,
         e.selection, Selection.collapsed (start + ins.length)⟩
        :: e.history.undo := rfl

lemma replaceRangeAux_redo (e : Editor) (start stop : Nat) (ins : List Char) :
    (replaceRangeAux e start stop ins).history.redo = [] := rfl

lemma editSeq_depth {e : Editor} {n : Nat} (h : EditSeq e n) :
    e.history.undo.length = n ∧ e.history.redo = [] := by
  induction h with
  | base t => exact ⟨rfl, rfl⟩
  | step a b ins hseq hno hsome ih =>
    rcases replaceRange_cases hsome with ⟨he1, he2, rfl⟩ | ⟨_, _, rfl⟩
    · exact absurd ⟨he1, he2⟩ hno
    · refine ⟨?_, replaceRangeAux_redo _ _ _ _⟩
      rw [replaceRangeAux_undo, List.length_cons, ih.1]

lemma undo_shape {e : Editor} {r : EditRecord} {rest : List EditRecord}
    (hu : e.history.undo = r :: rest) :
    e.undo.1.history.undo = rest ∧ e.undo.1.history.redo = r :: e.history.redo ∧
      e.undo.2 = true := by
  rw [undo_of_cons hu]
  exact ⟨rfl, rfl, rfl⟩

lemma undoIter_shape (e : Editor) (k : Nat) (hk : k ≤ e.history.undo.length) :
    (undoIter e k).history.undo.length = e.history.undo.length - k ∧
    (undoIter e k).history.redo.length = e.history.redo.length + k ∧
    ∀ j, j < k → ((undoIter e j).undo).2 = true := by
  induction k with
  | zero =>
    refine ⟨by simp [undoIter], by simp [undoIter], ?_⟩
    intro j hj
    exact absurd hj (Nat.not_lt_zero j)
  | succ k ih =>
    obtain ⟨ih1, ih2, ih3⟩ := ih (by omega)
    obtain ⟨r, rest, hu⟩ : ∃ r rest, (undoIter e k).history.undo = r :: rest := by
      match hcase : (undoIter e k).history.undo with
      | [] =>
        rw [hcase] at ih1
        simp at ih1
        omega
      | r :: rest => exact ⟨r, rest, rfl⟩
    obtain ⟨s1, s2, s3⟩ := undo_shape hu
    have hlen : rest.length + 1 = e.history.undo.length - k := by
      rw [← ih1, hu]
      simp
    refine ⟨?_, ?_, ?_⟩
    · show (undoIter e k).undo.1.history.undo.length = _
      rw [s1]
      omega
    · show (undoIter e k).undo.1.history.redo.length = _
      rw [s2, List.length_cons, ih2]
      omega
    · intro j hj
      by_cases hjk : j < k
      · exact ih3 j hjk
      · have hje : j = k := by omega
        subst hje
        exact s3

/-- C1 (amended). For every reachable editor state with a non-empty undo
stack, undo() then redo() restores the buffer text exactly and sets the
selection to the undone EditRecord's after-selection; this equals the
pre-undo selection whenever the selection has not been changed since that
edit was made. Symmetrically, redo() then undo() restores the text and
sets the selection to the record's before-selection. (The claim's
unconditional selection restoration is refuted by
claim_C1_counterexample.) -/
theorem claim_C1 (e : Editor) (h : Reachable e) :
    (∀ r rest, e.history.undo = r :: rest →
      e.undo.1.redo.1.rope = e.rope ∧ e.undo.1.redo.1.selection = r.after ∧
        (e.selection = r.after → e.undo.1.redo.1.selection = e.selection)) ∧
    (∀ r rest, e.history.redo = r :: rest →
      e.redo.1.undo.1.rope = e.rope ∧ e.redo.1.undo.1.selection = r.before ∧
        (e.selection = r.before → e.redo.1.undo.1.selection = e.selection)) := by
  have hinv := reachable_inv h
  constructor
  · intro r rest hu
    obtain ⟨h1, h2⟩ := undo_redo_restores hinv hu
    exact ⟨h1, h2, fun hs => by rw [h2, hs]⟩
  · intro r rest hr
    obtain ⟨h1, h2⟩ := redo_undo_restores hinv hr
    exact ⟨h1, h2, fun hs => by rw [h2, hs]⟩

/-- Witness for claim_C1 at a concrete reachable state: inserting one
char into an empty editor, undo followed by redo restores the text and
puts the selection at the record's after-selection. -/
theorem claim_C1_witness :
    (replaceRangeAux (Editor.fromText []) 0 0 ['a']).undo.1.redo.1.rope
        = (replaceRangeAux (Editor.fromText []) 0 0 ['a']).rope ∧
      (replaceRangeAux (Editor.fromText []) 0 0 ['a']).undo.1.redo.1.selection
        = Selection.collapsed 1 := by
  have hre : Reachable (replaceRangeAux (Editor.fromText []) 0 0 ['a']) :=
    Reachable.replaceRange 0 0 ['a'] (Reachable.fromText []) (by decide)
  have hc := (claim_C1 _ hre).1
    ⟨0, ['a'], [], Selection.collapsed 0, Selection.collapsed 1⟩ [] (by decide)
  exact ⟨hc.1, hc.2.1⟩

/-- C1 counterexample: after inserting a char and then moving the cursor
left, the state is reachable and has a non-empty undo stack; undo()
followed by redo() restores the buffer text but NOT the pre-undo
selection (the recorded after-selection differs from the moved cursor),
refuting the claim as stated. -/
theorem claim_C1_counterexample :
    Reachable ((replaceRangeAux (Editor.fromText []) 0 0 ['a']).moveLeft false) ∧
    ((replaceRangeAux (Editor.fromText []) 0 0 ['a']).moveLeft
        false).history.undo ≠ [] ∧
    ((replaceRangeAux (Editor.fromText []) 0 0 ['a']).moveLeft
        false).undo.1.redo.1.rope
      = ((replaceRangeAux (Editor.fromText []) 0 0 ['a']).moveLeft false).rope ∧
    ((replaceRangeAux (Editor.fromText []) 0 0 ['a']).moveLeft
        false).undo.1.redo.1.selection
      ≠ ((replaceRangeAux (Editor.fromText []) 0 0 ['a']).moveLeft
          false).selection := by
  refine ⟨Reachable.moveLeft false
    (Reachable.replaceRange 0 0 ['a'] (Reachable.fromText []) (by decide)),
    ?_, ?_, ?_⟩ <;> decide

/-- C3. From a fresh editor, after n effective non-undo/redo mutations
the undo stack has depth n and the redo stack is empty; after k
subsequent undo() calls (k at most n) the redo stack has depth k, the
undo stack has depth n - k, and each of the k undo() calls succeeded. -/
theorem claim_C3 {e : Editor} {n : Nat} (h : EditSeq e n) (k : Nat) (hk : k ≤ n) :
    e.history.undo.length = n ∧ e.history.redo = [] ∧
    (undoIter e k).history.undo.length = n - k ∧
    (undoIter e k).history.redo.length = k ∧
    (∀ j, j < k → ((undoIter e j).undo).2 = true) := by
  obtain ⟨hd, hr⟩ := editSeq_depth h
  have hs := undoIter_shape e k (by omega)
  refine ⟨hd, hr, ?_, ?_, hs.2.2⟩
  · rw [hs.1, hd]
  · rw [hs.2.1, hr]
    simp

/-- Witness for claim_C3: two concrete insertions then one undo leave
one record on each stack, and that undo call succeeded. -/
theorem claim_C3_witness :
    (undoIter (replaceRangeAux (replaceRangeAux (Editor.fromText []) 0 0 ['a'])
        1 1 ['b']) 1).history.undo.length = 1 ∧
    (undoIter (replaceRangeAux (replaceRangeAux (Editor.fromText []) 0 0 ['a'])
        1 1 ['b']) 1).history.redo.length = 1 ∧
    ((undoIter (replaceRangeAux (replaceRangeAux (Editor.fromText []) 0 0 ['a'])
        1 1 ['b']) 0).undo).2 = true := by
  have h0 : EditSeq (Editor.fromText []) 0 := EditSeq.base []
  have h1 : EditSeq (replaceRangeAux (Editor.fromText []) 0 0 ['a']) 1 :=
    EditSeq.step 0 0 ['a'] h0 (by decide) (by decide)
  have h2 : EditSeq (replaceRangeAux (replaceRangeAux (Editor.fromText []) 0 0
      ['a']) 1 1 ['b']) 2 :=
    EditSeq.step 1 1 ['b'] h1 (by decide) (by decide)
  have hc := claim_C3 h2 1 (by omega)
  exact ⟨hc.2.2.1, hc.2.2.2.1, hc.2.2.2.2 0 (by omega)⟩

/-- C2 (amended). For every editor state and every replace_range call
whose clamped range is not inverted and that is not a no-op after
clamping both range ends to the buffer length: the call succeeds, the
new selection is collapsed at clampedStart + charCount(text), the cached
preferred column is cleared, the redo stack is empty, exactly one new
EditRecord is pushed onto the undo stack, and the version counter is
incremented by one (modulo 2 ^ 64, as a wrapping u64). (The claim's use
of the raw, unclamped range start is refuted by
claim_C2_counterexample.) -/
theorem claim_C2 (e : Editor) (rs re : Nat) (text : List Char)
    (hno : ¬(min rs e.rope.length = min re e.rope.length ∧ text = []))
    (hle : min rs e.rope.length ≤ min re e.rope.length) :
    ∃ e', e.replaceRange rs re text = some e' ∧
      e'.selection = Selection.collapsed (min rs e.rope.length + text.length) ∧
      e'.preferredColumn = none ∧
      e'.history.redo = [] ∧
      (∃ rec, e'.history.undo = rec :: e.history.undo) ∧
      e'.version = (e.version + 1) % u64Mod := by
  refine ⟨replaceRangeAux e (min rs e.rope.length) (min re e.rope.length) text,
    ?_, rfl, rfl, rfl, ⟨_, rfl⟩, rfl⟩
  simp only [Editor.replaceRange]
  rw [if_neg hno, if_neg (by omega)]

/-- Witness for claim_C2: replacing the first char of a two-char buffer
leaves a collapsed selection right after the inserted char. -/
theorem claim_C2_witness :
    ∃ e', (Editor.fromText ['a','b']).replaceRange 0 1 ['x'] = some e' ∧
      e'.selection = Selection.collapsed 1 ∧ e'.version = 1 := by
  obtain ⟨e', h1, h2, _, _, _, h6⟩ :=
    claim_C2 (Editor.fromText ['a','b']) 0 1 ['x'] (by decide) (by decide)
  refine ⟨e', h1, ?_, ?_⟩
  · rw [h2]
    decide
  · rw [h6]
    decide

/-- C2 counterexample: on the two-char buffer with the out-of-range
range 3..5 and text of one char, the call is not a no-op, yet the
resulting selection sits at the clamped offset 2 + 1 = 3, not at
range.start + charCount(text) = 4 as the claim states. -/
theorem claim_C2_counterexample :
    ((Editor.fromText ['a','b']).replaceRange 3 5 ['x']).map Editor.selection
        = some (Selection.collapsed 3) ∧
      Selection.collapsed 3 ≠ Selection.collapsed (3 + 1) := by decide

/-- C4 (amended). After every move_vertical call the preferred-column
cache holds the desired (pre-clamp) column used for that move (the
previously cached column or, failing that, the cursor's column before
the move), EXCEPT that a non-extending vertical move that leaves the
cursor in place clears the cache. (The claim's assertion that the cache
is non-empty after every vertical move is refuted by
claim_C4_counterexample.) -/
theorem claim_C4 (e : Editor) (d : Int) (ext : Bool) :
    ((!ext && (min e.selection.cursor e.rope.length ==
        (e.moveVertical d ext).selection.cursor)) = false →
      (e.moveVertical d ext).preferredColumn
        = some (e.preferredColumn.getD e.cursorLineCol.2)) ∧
    ((!ext && (min e.selection.cursor e.rope.length ==
        (e.moveVertical d ext).selection.cursor)) = true →
      (e.moveVertical d ext).preferredColumn = none) := by
  have hpc : ∀ (c : Bool), c = (!ext && (min e.selection.cursor e.rope.length ==
      (e.moveVertical d ext).selection.cursor)) →
      (e.moveVertical d ext).preferredColumn
        = if c then none else some (e.preferredColumn.getD e.cursorLineCol.2) := by
    intro c hc
    subst hc
    rfl
  constructor <;> intro h <;> rw [hpc _ rfl, h] <;> simp

/-- Witness for claim_C4: moving up from line 1 of a two-line buffer
arms the cache with the pre-move column 0. -/
theorem claim_C4_witness :
    (((Editor.fromText ['x','\n','y']).setCursor 2 false).moveVertical (-1)
        false).preferredColumn = some 0 := by
  have hc := (claim_C4 ((Editor.fromText ['x','\n','y']).setCursor 2 false)
    (-1) false).1 (by decide)
  rw [hc]
  decide

/-- C4 counterexample: a non-extending move_up on an empty buffer does
not move the cursor, and the preferred-column cache is cleared, not
re-armed, refuting the claim that the cache is non-empty after every
vertical move. -/
theorem claim_C4_counterexample :
    ((Editor.fromText []).moveUp false).preferredColumn = none := by decide

/-- C5. On the buffer aa-newline-bbbb-newline-cc with a collapsed cursor
at offset 6 (line 1, column 3) and no cached preferred column, move_up
lands on offset 2 (column clamped to line 0's length 2) and arms the
cache with 3, and a subsequent move_down returns to offset 6. -/
theorem claim_C5 :
    ((((Editor.fromText ['a','a','\n','b','b','b','b','\n','c','c']).setCursor 6
        false).moveUp false).selection = Selection.collapsed 2) ∧
    ((((Editor.fromText ['a','a','\n','b','b','b','b','\n','c','c']).setCursor 6
        false).moveUp false).preferredColumn = some 3) ∧
    (((((Editor.fromText ['a','a','\n','b','b','b','b','\n','c','c']).setCursor 6
        false).moveUp false).moveDown false).selection = Selection.collapsed 6) := by
  decide

/-- C10. The pure movement and selection operations leave the buffer
text, the version counter, the undo and redo stacks and the pending
edit descriptor unchanged; only selection and preferred column change. -/
theorem claim_C10 (e : Editor) (p a b : Nat) (ext : Bool) :
    FrameIntact e (e.setCursor p ext) ∧ FrameIntact e e.selectAll ∧
    FrameIntact e (e.selectRange a b) ∧ FrameIntact e (e.moveLeft ext) ∧
    FrameIntact e (e.moveRight ext) ∧ FrameIntact e (e.moveUp ext) ∧
    FrameIntact e (e.moveDown ext) ∧ FrameIntact e (e.moveLineStart ext) ∧
    FrameIntact e (e.moveLineEnd ext) :=
  ⟨frame_setCursor e p ext, frame_selectAll e, frame_selectRange e a b,
   frame_moveLeft e ext, frame_moveRight e ext, frame_moveVertical e (-1) ext,
   frame_moveVertical e 1 ext, frame_moveLineStart e ext, frame_moveLineEnd e ext⟩

lemma utf8Lossy_encodeChar (c : Nat) (hv : ScalarValid c) (bs : List Nat) :
    utf8LossyDecode (utf8EncodeChar c ++ bs) = c :: utf8LossyDecode bs := by
  obtain ⟨hlt, hsur⟩ := hv
  unfold utf8EncodeChar
  split_ifs with h1 h2 h3
  · show utf8LossyDecode (c :: bs) = c :: utf8LossyDecode bs
    rw [utf8LossyDecode.eq_def]
    dsimp only
    rw [if_pos h1]
  · show utf8LossyDecode ((0xC0 + c / 0x40) :: (0x80 + c % 0x40) :: bs)
        = c :: utf8LossyDecode bs
    rw [utf8LossyDecode.eq_def]
    dsimp only
    rw [if_neg (by omega), if_neg (by omega), if_pos (by omega), if_pos (by omega)]
    have hval : (0xC0 + c / 0x40 - 0xC0) * 0x40 + (0x80 + c % 0x40 - 0x80) = c := by
      omega
    rw [hval]
  · show utf8LossyDecode ((0xE0 + c / 0x1000) :: (0x80 + c / 0x40 % 0x40)
        :: (0x80 + c % 0x40) :: bs) = c :: utf8LossyDecode bs
    rw [utf8LossyDecode.eq_def]
    dsimp only
    rw [if_neg (by omega), if_neg (by omega), if_neg (by omega), if_pos (by omega),
      if_pos (by omega), if_pos (by omega)]
    have hval : (0xE0 + c / 0x1000 - 0xE0) * 0x1000 +
        (0x80 + c / 0x40 % 0x40 - 0x80) * 0x40 + (0x80 + c % 0x40 - 0x80) = c := by
      omega
    rw [hval]
  · show utf8LossyDecode ((0xF0 + c / 0x40000) :: (0x80 + c / 0x1000 % 0x40)
        :: (0x80 + c / 0x40 % 0x40) :: (0x80 + c % 0x40) :: bs)
        = c :: utf8LossyDecode bs
    rw [utf8LossyDecode.eq_def]
    dsimp only
    rw [if_neg (by omega), if_neg (by omega), if_neg (by omega), if_neg (by omega),
      if_pos (by omega), if_pos (by omega), if_pos (by omega), if_pos (by omega)]
    have hval : (0xF0 + c / 0x40000 - 0xF0) * 0x40000 +
        (0x80 + c / 0x1000 % 0x40 - 0x80) * 0x1000 +
        (0x80 + c / 0x40 % 0x40 - 0x80) * 0x40 + (0x80 + c % 0x40 - 0x80) = c := by
      omega
    rw [hval]

lemma utf8Lossy_encode (t : List Nat) (hv : ∀ c ∈ t, ScalarValid c) :
    utf8LossyDecode (utf8Encode t) = t := by
  induction t with
  | nil => simp [utf8Encode, utf8LossyDecode]
  | cons c cs ih =>
    show utf8LossyDecode (utf8EncodeChar c ++ utf8Encode cs) = c :: cs
    rw [utf8Lossy_encodeChar c (hv c (by simp)) (utf8Encode cs),
      ih (fun x hx => hv x (by simp [hx]))]

lemma utf8DecodeStrict_nil : utf8DecodeStrict [] = some [] := by
  rw [utf8DecodeStrict.eq_def]

lemma utf8Encode2_eq (b b1 : Nat) (hb : 0xC2 ≤ b) (hb' : b < 0xE0)
    (hc : 0x80 ≤ b1 ∧ b1 < 0xC0) :
    utf8EncodeChar ((b - 0xC0) * 0x40 + (b1 - 0x80)) = [b, b1] := by
  unfold utf8EncodeChar
  rw [if_neg (by omega), if_pos (by omega)]
  have e1 : 0xC0 + ((b - 0xC0) * 0x40 + (b1 - 0x80)) / 0x40 = b := by omega
  have e2 : 0x80 + ((b - 0xC0) * 0x40 + (b1 - 0x80)) % 0x40 = b1 := by omega
  rw [e1, e2]

lemma utf8Encode3_eq (b b1 b2 : Nat) (hb : 0xE0 ≤ b) (hb' : b < 0xF0)
    (hc1 : 0x80 ≤ b1 ∧ b1 < 0xC0 ∧ ¬(b = 0xE0 ∧ b1 < 0xA0) ∧
      ¬(b = 0xED ∧ 0xA0 ≤ b1))
    (hc2 : 0x80 ≤ b2 ∧ b2 < 0xC0) :
    utf8EncodeChar ((b - 0xE0) * 0x1000 + (b1 - 0x80) * 0x40 + (b2 - 0x80))
      = [b, b1, b2] := by
  obtain ⟨hd1, hd2, hd3, hd4⟩ := hc1
  unfold utf8EncodeChar
  rw [if_neg (by omega), if_neg (by omega), if_pos (by omega)]
  have e1 : 0xE0 + ((b - 0xE0) * 0x1000 + (b1 - 0x80) * 0x40 + (b2 - 0x80))
      / 0x1000 = b := by omega
  have e2 : 0x80 + ((b - 0xE0) * 0x1000 + (b1 - 0x80) * 0x40 + (b2 - 0x80))
      / 0x40 % 0x40 = b1 := by omega
  have e3 : 0x80 + ((b - 0xE0) * 0x1000 + (b1 - 0x80) * 0x40 + (b2 - 0x80))
      % 0x40 = b2 := by omega
  rw [e1, e2, e3]

lemma utf8Encode4_eq (b b1 b2 b3 : Nat) (hb : 0xF0 ≤ b) (hb' : b < 0xF5)
    (hc1 : 0x80 ≤ b1 ∧ b1 < 0xC0 ∧ ¬(b = 0xF0 ∧ b1 < 0x90) ∧
      ¬(b = 0xF4 ∧ 0x90 ≤ b1))
    (hc2 : 0x80 ≤ b2 ∧ b2 < 0xC0) (hc3 : 0x80 ≤ b3 ∧ b3 < 0xC0) :
    utf8EncodeChar ((b - 0xF0) * 0x40000 + (b1 - 0x80) * 0x1000 +
      (b2 - 0x80) * 0x40 + (b3 - 0x80)) = [b, b1, b2, b3] := by
  obtain ⟨hd1, hd2, hd3, hd4⟩ := hc1
  unfold utf8EncodeChar
  rw [if_neg (by omega), if_neg (by omega), if_neg (by omega)]
  have e1 : 0xF0 + ((b - 0xF0) * 0x40000 + (b1 - 0x80) * 0x1000 +
      (b2 - 0x80) * 0x40 + (b3 - 0x80)) / 0x40000 = b := by omega
  have e2 : 0x80 + ((b - 0xF0) * 0x40000 + (b1 - 0x80) * 0x1000 +
      (b2 - 0x80) * 0x40 + (b3 - 0x80)) / 0x1000 % 0x40 = b1 := by omega
  have e3 : 0x80 + ((b - 0xF0) * 0x40000 + (b1 - 0x80) * 0x1000 +
      (b2 - 0x80) * 0x40 + (b3 - 0x80)) / 0x40 % 0x40 = b2 := by omega
  have e4 : 0x80 + ((b - 0xF0) * 0x40000 + (b1 - 0x80) * 0x1000 +
      (b2 - 0x80) * 0x40 + (b3 - 0x80)) % 0x40 = b3 := by omega
  rw [e1, e2, e3, e4]

lemma utf8DecodeStrict_inv (n : Nat) : ∀ (bs : List Nat), bs.length ≤ n →
    ∀ t, utf8DecodeStrict bs = some t →
    utf8Encode t = bs ∧ ∀ c ∈ t, ScalarValid c := by
  induction n with
  | zero =>
    intro bs hlen t h
    have hnil : bs = [] := List.length_eq_zero.mp (by omega)
    subst hnil
    rw [utf8DecodeStrict_nil] at h
    obtain rfl := Option.some_inj.mp h
    exact ⟨rfl, by simp⟩
  | succ n ih =>
    intro bs hlen t h
    cases bs with
    | nil =>
      rw [utf8DecodeStrict_nil] at h
      obtain rfl := Option.some_inj.mp h
      exact ⟨rfl, by simp⟩
    | cons b rest =>
      rw [utf8DecodeStrict.eq_def] at h
      dsimp only at h
      by_cases hb1 : b < 0x80
      · rw [if_pos hb1] at h
        cases hrest : utf8DecodeStrict rest with
        | none => rw [hrest] at h; simp at h
        | some t' =>
          rw [hrest] at h
          simp only [Option.map_some', Option.some_inj] at h
          obtain ⟨henc, hval⟩ := ih rest (by simp at hlen; omega) t' hrest
          subst h
          refine ⟨?_, ?_⟩
          · show utf8EncodeChar b ++ utf8Encode t' = b :: rest
            rw [henc]
            unfold utf8EncodeChar
            rw [if_pos hb1]
            rfl
          · intro c hc
            rcases List.mem_cons.mp hc with rfl | hc'
            · exact ⟨by omega, by omega⟩
            · exact hval c hc'
      · rw [if_neg hb1] at h
        by_cases hb2 : b < 0xC2
        · rw [if_pos hb2] at h
          simp at h
        · rw [if_neg hb2] at h
          by_cases hb3 : b < 0xE0
          · rw [if_pos hb3] at h
            cases rest with
            | nil => simp at h
            | cons b1 rest1 =>
              dsimp only at h
              by_cases hcont : 0x80 ≤ b1 ∧ b1 < 0xC0
              · rw [if_pos hcont] at h
                cases hrest : utf8DecodeStrict rest1 with
                | none => rw [hrest] at h; simp at h
                | some t' =>
                  rw [hrest] at h
                  simp only [Option.map_some', Option.some_inj] at h
                  obtain ⟨henc, hval⟩ := ih rest1 (by simp at hlen; omega) t' hrest
                  subst h
                  refine ⟨?_, ?_⟩
                  · show utf8EncodeChar ((b - 0xC0) * 0x40 + (b1 - 0x80))
                        ++ utf8Encode t' = b :: b1 :: rest1
                    rw [henc, utf8Encode2_eq b b1 (by omega) hb3 hcont]
                    rfl
                  · intro c hc
                    rcases List.mem_cons.mp hc with rfl | hc'
                    · exact ⟨by omega, by omega⟩
                    · exact hval c hc'
              · rw [if_neg hcont] at h
                simp at h
          · rw [if_neg hb3] at h
            by_cases hb4 : b < 0xF0
            · rw [if_pos hb4] at h
              cases rest with
              | nil => simp at h
              | cons b1 rest1 =>
                dsimp only at h
                by_cases hc1 : 0x80 ≤ b1 ∧ b1 < 0xC0 ∧ ¬(b = 0xE0 ∧ b1 < 0xA0) ∧
                    ¬(b = 0xED ∧ 0xA0 ≤ b1)
                · rw [if_pos hc1] at h
                  cases rest1 with
                  | nil => simp at h
                  | cons b2 rest2 =>
                    dsimp only at h
                    by_cases hc2 : 0x80 ≤ b2 ∧ b2 < 0xC0
                    · rw [if_pos hc2] at h
                      cases hrest : utf8DecodeStrict rest2 with
                      | none => rw [hrest] at h; simp at h
                      | some t' =>
                        rw [hrest] at h
                        simp only [Option.map_some', Option.some_inj] at h
                        obtain ⟨henc, hval⟩ :=
                          ih rest2 (by simp at hlen; omega) t' hrest
                        subst h
                        refine ⟨?_, ?_⟩
                        · show utf8EncodeChar ((b - 0xE0) * 0x1000 +
                              (b1 - 0x80) * 0x40 + (b2 - 0x80)) ++ utf8Encode t'
                              = b :: b1 :: b2 :: rest2
                          rw [henc, utf8Encode3_eq b b1 b2 (by omega) hb4 hc1 hc2]
                          rfl
                        · intro c hc
                          rcases List.mem_cons.mp hc with rfl | hc'
                          · obtain ⟨hd1, hd2, hd3, hd4⟩ := hc1
                            exact ⟨by omega, by omega⟩
                          · exact hval c hc'
                    · rw [if_neg hc2] at h
                      simp at h
                · rw [if_neg hc1] at h
                  simp at h
            · rw [if_neg hb4] at h
              by_cases hb5 : b < 0xF5
              · rw [if_pos hb5] at h
                cases rest with
                | nil => simp at h
                | cons b1 rest1 =>
                  dsimp only at h
                  by_cases hc1 : 0x80 ≤ b1 ∧ b1 < 0xC0 ∧ ¬(b = 0xF0 ∧ b1 < 0x90) ∧
                      ¬(b = 0xF4 ∧ 0x90 ≤ b1)
                  · rw [if_pos hc1] at h
                    cases rest1 with
                    | nil => simp at h
                    | cons b2 rest2 =>
                      dsimp only at h
                      by_cases hc2 : 0x80 ≤ b2 ∧ b2 < 0xC0
                      · rw [if_pos hc2] at h
                        cases rest2 with
                        | nil => simp at h
                        | cons b3 rest3 =>
                          dsimp only at h
                          by_cases hc3 : 0x80 ≤ b3 ∧ b3 < 0xC0
                          · rw [if_pos hc3] at h
                            cases hrest : utf8DecodeStrict rest3 with
                            | none => rw [hrest] at h; simp at h
                            | some t' =>
                              rw [hrest] at h
                              simp only [Option.map_some', Option.some_inj] at h
                              obtain ⟨henc, hval⟩ :=
                                ih rest3 (by simp at hlen; omega) t' hrest
                              subst h
                              refine ⟨?_, ?_⟩
                              · show utf8EncodeChar ((b - 0xF0) * 0x40000 +
                                    (b1 - 0x80) * 0x1000 + (b2 - 0x80) * 0x40 +
                                    (b3 - 0x80)) ++ utf8Encode t'
                                    = b :: b1 :: b2 :: b3 :: rest3
                                rw [henc,
                                  utf8Encode4_eq b b1 b2 b3 (by omega) hb5 hc1 hc2 hc3]
                                rfl
                              · intro c hc
                                rcases List.mem_cons.mp hc with rfl | hc'
                                · obtain ⟨hd1, hd2, hd3, hd4⟩ := hc1
                                  exact ⟨by omega, by omega⟩
                                · exact hval c hc'
                          · rw [if_neg hc3] at h
                            simp at h
                      · rw [if_neg hc2] at h
                        simp at h
                  · rw [if_neg hc1] at h
                    simp at h
              · rw [if_neg hb5] at h
                simp at h

/-- C7. For every byte sequence beginning with EF BB BF whose remainder
is valid UTF-8 (expressed as: the strict decoder accepts the remainder,
yielding the text), decode_bytes returns that text with the
UTF-8-with-BOM encoding regardless of the hint, and encode_text with
that encoding re-emits exactly the 3-byte BOM followed by the UTF-8
bytes of the text. -/
theorem claim_C7 (rest text : List Nat) (hint : TextEncodingHint)
    (hvalid : utf8DecodeStrict rest = some text) :
    decode_bytes (0xEF :: 0xBB :: 0xBF :: rest) hint
        = (text, TextEncoding.utf8bom) ∧
    encode_text text TextEncoding.utf8bom = 0xEF :: 0xBB :: 0xBF :: rest := by
  obtain ⟨henc, hval⟩ :=
    utf8DecodeStrict_inv rest.length rest (Nat.le_refl _) text hvalid
  constructor
  · unfold decode_bytes
    have hstrip : stripPfx [0xEF, 0xBB, 0xBF] (0xEF :: 0xBB :: 0xBF :: rest)
        = some rest := by simp [stripPfx]
    rw [hstrip]
    show (utf8LossyDecode rest, TextEncoding.utf8bom) = (text, TextEncoding.utf8bom)
    rw [← henc, utf8Lossy_encode text hval]
  · show 0xEF :: 0xBB :: 0xBF :: utf8Encode text = 0xEF :: 0xBB :: 0xBF :: rest
    rw [henc]

/-- Witness for claim_C7 on the one-byte remainder 0x41. -/
theorem claim_C7_witness :
    decode_bytes [0xEF, 0xBB, 0xBF, 0x41] TextEncodingHint.auto
        = ([0x41], TextEncoding.utf8bom) ∧
    encode_text [0x41] TextEncoding.utf8bom = [0xEF, 0xBB, 0xBF, 0x41] :=
  claim_C7 [0x41] [0x41] TextEncodingHint.auto (by decide)

/-- C6 (code bug). The decode-encode round trip fails for UTF-16:
encoding_rs has no UTF-16 encoder (Encoding::encode uses the output
encoding, which is UTF-8 for UTF-16LE/BE), so encode_text("a", Utf16Le)
emits FF FE followed by the UTF-8 byte 0x61; decode_bytes sees the
UTF-16LE BOM, decodes the remaining lone byte as UTF-16LE and yields
U+FFFD, not "a". The spec's contract decode(encode(t, e)) == t therefore
does not hold for the UTF-16 encodings. -/
theorem claim_C6 :
    encode_text [0x61] TextEncoding.utf16le = [0xFF, 0xFE, 0x61] ∧
    decode_bytes (encode_text [0x61] TextEncoding.utf16le)
        TextEncodingHint.utf16le = ([0xFFFD], TextEncoding.utf16le) ∧
    [0xFFFD] ≠ [0x61] := by decide

lemma mem_insertSpan {x z : HighlightSpan} {l : List HighlightSpan} :
    z ∈ insertSpan x l ↔ z = x ∨ z ∈ l := by
  induction l with
  | nil => simp [insertSpan]
  | cons y ys ih =>
    unfold insertSpan
    split
    · simp only [List.mem_cons, ih]
      tauto
    · simp only [List.mem_cons]

lemma pairwise_insertSpan (x : HighlightSpan) (l : List HighlightSpan)
    (hl : l.Pairwise spanLeP) : (insertSpan x l).Pairwise spanLeP := by
  induction l with
  | nil => simp [insertSpan]
  | cons y ys ih =>
    obtain ⟨hy, hys⟩ := List.pairwise_cons.mp hl
    unfold insertSpan
    split
    · next hlt =>
      refine List.pairwise_cons.mpr ⟨?_, ih hys⟩
      intro z hz
      rcases mem_insertSpan.mp hz with rfl | hz'
      · simp only [spanKeyLt, decide_eq_true_eq] at hlt
        unfold spanLeP
        omega
      · exact hy z hz'
    · next hnlt =>
      refine List.pairwise_cons.mpr ⟨?_, hl⟩
      intro z hz
      rcases List.mem_cons.mp hz with rfl | hz'
      · simp only [spanKeyLt, decide_eq_true_eq] at hnlt
        unfold spanLeP
        omega
      · have h1 := hy z hz'
        simp only [spanKeyLt, decide_eq_true_eq] at hnlt
        unfold spanLeP at h1 ⊢
        omega

lemma pairwise_sortSpans (l : List HighlightSpan) :
    (sortSpans l).Pairwise spanLeP := by
  induction l with
  | nil => simp [sortSpans]
  | cons x xs ih => exact pairwise_insertSpan x (sortSpans xs) ih

lemma mem_sortSpans {z : HighlightSpan} {l : List HighlightSpan} :
    z ∈ sortSpans l ↔ z ∈ l := by
  induction l with
  | nil => simp [sortSpans]
  | cons x xs ih =>
    unfold sortSpans
    rw [mem_insertSpan, ih, List.mem_cons]

lemma spans_core (captures : List CaptureM) (rStart rEnd : Nat) :
    (∀ sp ∈ sortSpans (captures.filterMap (spanOfCapture rStart rEnd)),
      rStart ≤ sp.start ∧ sp.start < sp.stop ∧ sp.stop ≤ rEnd) ∧
    (sortSpans (captures.filterMap (spanOfCapture rStart rEnd))).Pairwise
      (fun a b => a.start < b.start ∨ (a.start = b.start ∧ a.stop ≤ b.stop)) := by
  constructor
  · intro sp hsp
    rw [mem_sortSpans] at hsp
    obtain ⟨c, hc, hsome⟩ := List.mem_filterMap.mp hsp
    unfold spanOfCapture at hsome
    cases htag : tag_from_capture_name c.name with
    | none => rw [htag] at hsome; cases hsome
    | some tag =>
      rw [htag] at hsome
      dsimp only at hsome
      split_ifs at hsome with hlt
      obtain rfl := Option.some_inj.mp hsome
      exact ⟨Nat.le_max_right _ _, hlt, Nat.min_le_right _ _⟩
  · exact (pairwise_sortSpans _).imp (fun h => h)

/-- C8. Whenever highlight_spans returns a span list, every span's byte
range is contained in the query window (capture ranges are clipped to
it, and empty clips are dropped), and the list is sorted ascending by
the pair (start, end). -/
theorem claim_C8 {T : Type} (st : SyntaxState T) (now : Nat)
    (parseResult : Option T) (captures : List CaptureM) (rStart rEnd : Nat)
    (spans : List HighlightSpan)
    (h : (highlight_spans st now parseResult captures rStart rEnd).2
      = Except.ok spans) :
    (∀ sp ∈ spans, rStart ≤ sp.start ∧ sp.start < sp.stop ∧ sp.stop ≤ rEnd) ∧
    spans.Pairwise
      (fun a b => a.start < b.start ∨ (a.start = b.start ∧ a.stop ≤ b.stop)) := by
  unfold highlight_spans at h
  dsimp only at h
  cases hE : (ensureParsed st now parseResult).2 with
  | error e =>
    rw [hE] at h
    simp at h
  | ok u =>
    rw [hE] at h
    dsimp only at h
    split_ifs at h with hq
    · obtain rfl := Except.ok.inj h
      exact spans_core captures rStart rEnd
    · obtain rfl := Except.ok.inj h
      exact ⟨by simp, List.Pairwise.nil⟩

/-- Witness for claim_C8 on three concrete captures (one with an
unrecognized name, one reaching past the window). -/
theorem claim_C8_witness :
    (∀ sp ∈ ([⟨3, 4, HighlightTag.number⟩, ⟨3, 10, HighlightTag.comment⟩] :
        List HighlightSpan), 3 ≤ sp.start ∧ sp.start < sp.stop ∧ sp.stop ≤ 10) ∧
    ([⟨3, 4, HighlightTag.number⟩, ⟨3, 10, HighlightTag.comment⟩] :
        List HighlightSpan).Pairwise
      (fun a b => a.start < b.start ∨ (a.start = b.start ∧ a.stop ≤ b.stop)) :=
  claim_C8 (⟨LanguageId.cpp, some 0, true, 40, none⟩ : SyntaxState Nat) 0 none
    [⟨"comment".toList, 2, 50⟩, ⟨"xyz".toList, 0, 4⟩, ⟨"number".toList, 0, 4⟩]
    3 10 [⟨3, 4, HighlightTag.number⟩, ⟨3, 10, HighlightTag.comment⟩] rfl

/-- C9. If the debounced incremental reparse inside ensure_parsed runs
(grammar language, pending edit, debounce elapsed) and the parser fails
to produce a tree, ensure_parsed returns the ParseFailed error and the
syntax state is left entirely unchanged: in particular the previously
cached tree is retained for later queries. -/
theorem claim_C9 {T : Type} (st : SyntaxState T) (now since : Nat)
    (hlang : ¬(st.language = LanguageId.plainText ∨
      st.language = LanguageId.markdown))
    (hp : st.pendingSince = some since)
    (hel : st.debounce ≤ now - since) :
    ensureParsed st now none = (st, Except.error SyntaxError.parseFailed) := by
  unfold ensureParsed
  rw [if_neg hlang, hp]
  dsimp only
  rw [if_neg (by omega)]

/-- Witness for claim_C9: a concrete C++ syntax state with a cached
tree and an expired debounce window keeps its tree when the reparse
fails. -/
theorem claim_C9_witness :
    ensureParsed (⟨LanguageId.cpp, some 7, true, 40, some 100⟩ : SyntaxState Nat)
        200 none
      = (⟨LanguageId.cpp, some 7, true, 40, some 100⟩,
         Except.error SyntaxError.parseFailed) :=
  claim_C9 (⟨LanguageId.cpp, some 7, true, 40, some 100⟩ : SyntaxState Nat)
    200 100 (by decide) rfl (by decide)
